import Mathlib

/-!
CSwiftCovers: the three C cover functions.

`Sources/CSwiftCovers/include/CSwiftCovers.h` declares three `static inline`
functions whose bodies are a single C expression each:

* `int32_for_float (float f)        { return f; }`
* `int32_divide (int32_t n, d)      { return n / d; }`
* `int32_remainder (int32_t n, d)   { return n % d; }`

The embedding gives each function the meaning ISO C gives its body.  For
`int32_divide`, `int32_remainder` and `int32_for_float` a result of `none`
stands for "ISO C defines no value for the expression" (undefined behaviour)
and `some v` is the value the expression has.  The bodies have no guard, so
what a compiled cover does on those operands is the target's business:
`int32_divide_on`, `int32_remainder_on` and `int32_for_float_on` complete the
covers with a `Target`, whose `none` stands for a fault.  Values of type
`int32_t` are integers of `Int` constrained by `isInt32`.
-/

namespace CSwiftCovers

/-! ## Data model: `int32_t` -/

/-- Smallest value of `int32_t`, `-2^31`. -/
def INT32_MIN : Int := -2147483648

/-- Largest value of `int32_t`, `2^31 - 1`. -/
def INT32_MAX : Int := 2147483647

/-- The integer `x` is representable in `int32_t`. -/
def isInt32 (x : Int) : Prop := INT32_MIN ≤ x ∧ x ≤ INT32_MAX

instance (x : Int) : Decidable (isInt32 x) := by
  unfold isInt32; infer_instance

/-! ## The integer covers -/

/-- Embedding of `int32_divide`, body `return n / d;`.

C (6.5.5): the result of `/` is the algebraic quotient with any fractional
part discarded (`Int.tdiv`); a zero divisor is undefined; a quotient that is
not representable in the type is undefined. -/
def int32_divide (n d : Int) : Option Int :=
  if d = 0 then none
  else if isInt32 (Int.tdiv n d) then some (Int.tdiv n d)
  else none

/-- Embedding of `int32_remainder`, body `return n % d;`.

C (6.5.5): a zero divisor is undefined; when the quotient `n / d` is
representable the result is the remainder of the truncating division
(`Int.tmod`); otherwise `n % d` is undefined as well. -/
def int32_remainder (n d : Int) : Option Int :=
  if d = 0 then none
  else if isInt32 (Int.tdiv n d) then some (Int.tmod n d)
  else none

/-! ## Data model: `float` -/

/-- A C `float`: an IEEE-754 binary32 value, identified by its 32-bit pattern
(1 sign bit, 8 exponent bits, 23 fraction bits). -/
structure Float32 where
  bits : Nat
  lt : bits < 4294967296

/-- Sign bit (bit 31): `true` for a negative value. -/
def float_sign (f : Float32) : Bool := decide (f.bits / 2147483648 % 2 = 1)

/-- Biased exponent field (bits 30..23). -/
def float_exponent (f : Float32) : Nat := f.bits / 8388608 % 256

/-- Fraction field (bits 22..0). -/
def float_fraction (f : Float32) : Nat := f.bits % 8388608

/-- The pattern is a NaN: exponent all ones, fraction non-zero. -/
def float_isNaN (f : Float32) : Prop := float_exponent f = 255 ∧ float_fraction f ≠ 0

/-- The pattern is an infinity: exponent all ones, fraction zero. -/
def float_isInf (f : Float32) : Prop := float_exponent f = 255 ∧ float_fraction f = 0

instance (f : Float32) : Decidable (float_isNaN f) := by
  unfold float_isNaN; infer_instance

instance (f : Float32) : Decidable (float_isInf f) := by
  unfold float_isInf; infer_instance

/-- Integer significand: the fraction for a subnormal, the fraction with the
hidden leading one for a normal number. -/
def float_significand (f : Float32) : Nat :=
  if float_exponent f = 0 then float_fraction f else 8388608 + float_fraction f

/-- Exponent of the unit in the last place, biased by 150: the magnitude of a
finite value is `significand * 2 ^ (float_scale - 150)`. -/
def float_scale (f : Float32) : Nat :=
  if float_exponent f = 0 then 1 else float_exponent f

/-- Exact rational value of a finite float; `none` for NaN and the infinities. -/
def float_value (f : Float32) : Option ℚ :=
  if float_exponent f = 255 then none
  else
    let m : ℚ := (float_significand f : ℚ) * (2 : ℚ) ^ ((float_scale f : Int) - 150)
    some (if float_sign f then -m else m)

/-- Truncation toward zero as the specification's glossary words it: the
fractional part of a rational is discarded, independent of sign. -/
def truncateTowardZero (x : ℚ) : Int := if 0 ≤ x then ⌊x⌋ else ⌈x⌉

/-! ## The float cover -/

/-- Integral part of the magnitude of a finite float, computed on the bit
fields: the significand shifted left when the scale is at least 150 and
shifted right (low bits dropped) otherwise. -/
def float_integral_magnitude (f : Float32) : Nat :=
  if 150 ≤ float_scale f then float_significand f * 2 ^ (float_scale f - 150)
  else float_significand f / 2 ^ (150 - float_scale f)

/-- Embedding of `int32_for_float`, body `return f;` (implicit conversion of
`float` to `int32_t`).

C (6.3.1.4): the fractional part is discarded; if the integral part cannot be
represented in the integer type (which includes NaN and the infinities, that
have none) the behaviour is undefined. -/
def int32_for_float (f : Float32) : Option Int :=
  if float_exponent f = 255 then none
  else
    let v : Int :=
      if float_sign f then -(float_integral_magnitude f : Int)
      else (float_integral_magnitude f : Int)
    if isInt32 v then some v else none

/-- The binary32 pattern `0x4079999A`, the float nearest to 3.9. -/
def float_3_9 : Float32 := ⟨1081711002, by decide⟩

/-- The binary32 pattern `0xC079999A`, the float nearest to -3.9. -/
def float_neg_3_9 : Float32 := ⟨3229194650, by decide⟩

/-- The binary32 pattern `0xCF800000`, the float `-2^32`. -/
def float_neg_2_32 : Float32 := ⟨3481272320, by decide⟩

/-! ## Builds of the covers

The three bodies carry no guard.  On the operands for which ISO C defines no
result, a build of a cover returns, or faults, as the target's division,
remainder and conversion do; that behaviour is not in the source and is a
parameter of the embedding. -/

/-- What a target does with the operands ISO C leaves undefined: the value it
returns, or `none` when it faults. -/
structure Target where
  divide_undefined : Int → Int → Option Int
  remainder_undefined : Int → Int → Option Int
  convert_undefined : Float32 → Option Int

/-- Embedding of a build of `int32_divide`: the result ISO C defines for
`n / d` when there is one, the target's otherwise. -/
def int32_divide_on (T : Target) (n d : Int) : Option Int :=
  match int32_divide n d with
  | some q => some q
  | none => T.divide_undefined n d

/-- Embedding of a build of `int32_remainder`: the result ISO C defines for
`n % d` when there is one, the target's otherwise. -/
def int32_remainder_on (T : Target) (n d : Int) : Option Int :=
  match int32_remainder n d with
  | some r => some r
  | none => T.remainder_undefined n d

/-- Embedding of a build of `int32_for_float`: the result ISO C defines for
the conversion when there is one, the target's otherwise. -/
def int32_for_float_on (T : Target) (f : Float32) : Option Int :=
  match int32_for_float f with
  | some v => some v
  | none => T.convert_undefined f

/-- Two's-complement reduction of an integer to the `int32_t` range: the low
32 bits, read as signed. -/
def wrap_int32 (x : Int) : Int := (x + 2147483648) % 4294967296 - 2147483648

/-- An example target that returns a value on the overflow operands: the
division keeps the low 32 bits of the quotient, the remainder is that of the
truncating division, the conversion saturates (a NaN gives `0`); a zero
divisor faults. -/
def wrapping_target : Target where
  divide_undefined := fun n d => if d = 0 then none else some (wrap_int32 (Int.tdiv n d))
  remainder_undefined := fun n d => if d = 0 then none else some (wrap_int32 (Int.tmod n d))
  convert_undefined := fun f =>
    if float_isNaN f then some 0
    else if float_sign f then some INT32_MIN
    else some INT32_MAX

/-! ## Helper lemmas on truncating division -/

theorem neg_tmod_eq (a b : Int) : Int.tmod (-a) b = -Int.tmod a b := by
  rw [Int.tmod_def, Int.tmod_def, Int.neg_tdiv]
  ring

theorem tmod_nonpos_of_nonpos (a b : Int) (ha : a ≤ 0) : Int.tmod a b ≤ 0 := by
  have h : 0 ≤ Int.tmod (-a) b := Int.tmod_nonneg b (by omega)
  rw [neg_tmod_eq] at h
  omega

/-- For a non-negative dividend the product `(a tdiv b) * b` lies in `[0, a]`. -/
theorem tdiv_mul_bounds_of_nonneg (a b : Int) (ha : 0 ≤ a) :
    0 ≤ Int.tdiv a b * b ∧ Int.tdiv a b * b ≤ a := by
  have hr : 0 ≤ Int.tmod a b := Int.tmod_nonneg b ha
  have he : Int.tdiv a b * b + Int.tmod a b = a := Int.tdiv_add_tmod' a b
  refine ⟨?_, by omega⟩
  rcases le_total 0 b with hb | hb
  · exact mul_nonneg (Int.tdiv_nonneg ha hb) hb
  · exact mul_nonneg_of_nonpos_of_nonpos (Int.tdiv_nonpos ha hb) hb

/-- For a non-positive dividend the product `(a tdiv b) * b` lies in `[a, 0]`. -/
theorem tdiv_mul_bounds_of_nonpos (a b : Int) (ha : a ≤ 0) :
    a ≤ Int.tdiv a b * b ∧ Int.tdiv a b * b ≤ 0 := by
  have h := tdiv_mul_bounds_of_nonneg (-a) b (by omega)
  rw [Int.neg_tdiv, neg_mul] at h
  omega

/-- The truncating quotient of two `int32_t` values is representable except
for `INT32_MIN / -1`. -/
theorem isInt32_tdiv (n d : Int) (hn : isInt32 n) (hd0 : d ≠ 0)
    (hov : ¬ (n = INT32_MIN ∧ d = -1)) : isInt32 (Int.tdiv n d) := by
  unfold isInt32 INT32_MIN INT32_MAX at *
  have hq : (Int.tdiv n d).natAbs = n.natAbs / d.natAbs := Int.natAbs_tdiv n d
  by_cases h1 : d = 1
  · subst h1; simpa using hn
  by_cases h2 : d = -1
  · subst h2
    rw [Int.tdiv_neg, Int.tdiv_one]
    omega
  · have hd2 : 2 ≤ d.natAbs := by omega
    have hle : n.natAbs / d.natAbs ≤ n.natAbs / 2 :=
      Nat.div_le_div_left hd2 (by decide)
    omega

theorem natCast_div_eq_sign_mul (A B : Nat) :
    Int.tdiv (A : Int) (B : Int) = Int.sign ((A : Int) * (B : Int)) * ((A / B : Nat) : Int) := by
  rw [← Int.ofNat_tdiv]
  by_cases h : A * B = 0
  · have h0 : A / B = 0 := by
      rcases Nat.mul_eq_zero.mp h with h | h <;> simp [h]
    simp [h0]
  · have hpos : (0 : Int) < (A : Int) * (B : Int) := by
      have : 0 < A * B := Nat.pos_of_ne_zero h
      exact_mod_cast this
    rw [Int.sign_eq_one_of_pos hpos, one_mul]

/-- The truncating quotient is the sign of `a * b` times the floor quotient of
the magnitudes. -/
theorem tdiv_eq_sign_mul_natAbs_div (a b : Int) :
    Int.tdiv a b = Int.sign (a * b) * ((a.natAbs / b.natAbs : Nat) : Int) := by
  have key := natCast_div_eq_sign_mul a.natAbs b.natAbs
  rcases Int.natAbs_eq a with ha | ha <;> rcases Int.natAbs_eq b with hb | hb
  · rw [← ha, ← hb] at key; exact key
  · have e : Int.tdiv a b = -Int.tdiv (a.natAbs : Int) (b.natAbs : Int) := by
      conv_lhs => rw [ha, hb, Int.tdiv_neg]
    have e2 : a * b = -((a.natAbs : Int) * (b.natAbs : Int)) := by
      conv_lhs => rw [ha, hb]
      ring
    rw [e, e2, Int.sign_neg, key]; ring
  · have e : Int.tdiv a b = -Int.tdiv (a.natAbs : Int) (b.natAbs : Int) := by
      conv_lhs => rw [ha, hb, Int.neg_tdiv]
    have e2 : a * b = -((a.natAbs : Int) * (b.natAbs : Int)) := by
      conv_lhs => rw [ha, hb]
      ring
    rw [e, e2, Int.sign_neg, key]; ring
  · have e : Int.tdiv a b = Int.tdiv (a.natAbs : Int) (b.natAbs : Int) := by
      conv_lhs => rw [ha, hb, Int.neg_tdiv_neg]
    have e2 : a * b = (a.natAbs : Int) * (b.natAbs : Int) := by
      conv_lhs => rw [ha, hb]
      ring
    rw [e, e2, key]

/-! ## Helper lemmas on truncation of rationals -/

theorem truncateTowardZero_neg (x : ℚ) :
    truncateTowardZero (-x) = -truncateTowardZero x := by
  unfold truncateTowardZero
  rcases lt_trichotomy x 0 with h | h | h
  · have h1 : 0 ≤ -x := by linarith
    have h2 : ¬ 0 ≤ x := by linarith
    simp [h1, h2, Int.floor_neg]
  · subst h; simp
  · have h1 : ¬ 0 ≤ -x := by linarith
    have h2 : 0 ≤ x := by linarith
    simp [h1, h2, Int.ceil_neg]

theorem truncateTowardZero_natCast_div (A B : Nat) :
    truncateTowardZero ((A : ℚ) / (B : ℚ)) = ((A / B : Nat) : Int) := by
  unfold truncateTowardZero
  rw [if_pos (by positivity)]
  have h := Rat.floor_intCast_div_natCast (A : Int) B
  simpa using h

/-- Truncating the exact rational quotient gives the truncating integer
quotient. -/
theorem truncateTowardZero_div (a b : Int) :
    truncateTowardZero ((a : ℚ) / (b : ℚ)) = Int.tdiv a b := by
  obtain ⟨A, rfl | rfl⟩ := Int.eq_nat_or_neg a <;>
    obtain ⟨B, rfl | rfl⟩ := Int.eq_nat_or_neg b
  · rw [← Int.ofNat_tdiv, ← truncateTowardZero_natCast_div]
    simp
  · rw [Int.tdiv_neg, ← Int.ofNat_tdiv, ← truncateTowardZero_natCast_div,
      ← truncateTowardZero_neg]
    congr 1
    push_cast
    ring
  · rw [Int.neg_tdiv, ← Int.ofNat_tdiv, ← truncateTowardZero_natCast_div,
      ← truncateTowardZero_neg]
    congr 1
    push_cast
    ring
  · rw [Int.neg_tdiv_neg, ← Int.ofNat_tdiv, ← truncateTowardZero_natCast_div]
    congr 1
    push_cast
    ring

theorem truncateTowardZero_of_nonneg (x : ℚ) (hx : 0 ≤ x) :
    truncateTowardZero x = ⌊x⌋ := by
  unfold truncateTowardZero
  rw [if_pos hx]

/-- The truncation has at most the magnitude of its argument and is less than
one away from it. -/
theorem truncateTowardZero_bounds (x : ℚ) :
    |((truncateTowardZero x : Int) : ℚ)| ≤ |x| ∧ |x - (truncateTowardZero x : ℚ)| < 1 := by
  unfold truncateTowardZero
  by_cases hx : 0 ≤ x
  · rw [if_pos hx]
    have h1 := Int.floor_le x
    have h2 := Int.lt_floor_add_one x
    have h3 : (0 : ℚ) ≤ (⌊x⌋ : ℚ) := by exact_mod_cast Int.floor_nonneg.mpr hx
    rw [abs_of_nonneg h3, abs_of_nonneg hx, abs_of_nonneg (by linarith)]
    constructor <;> linarith
  · rw [if_neg hx]
    have hx0 : x < 0 := not_le.mp hx
    have h1 := Int.le_ceil x
    have h2 := Int.ceil_lt_add_one x
    have h3 : (⌈x⌉ : ℚ) ≤ 0 := by
      have : ⌈x⌉ ≤ 0 := Int.ceil_le.mpr (by simpa using le_of_lt hx0)
      exact_mod_cast this
    rw [abs_of_nonpos h3, abs_of_neg hx0, abs_of_nonpos (by linarith)]
    constructor <;> linarith

/-! ## Helper lemmas on the binary32 fields -/

/-- The power of two that scales the significand, over natural exponents. -/
theorem two_zpow_scale (k : Nat) :
    (2 : ℚ) ^ ((k : Int) - 150) =
      if 150 ≤ k then ((2 ^ (k - 150) : Nat) : ℚ) else 1 / ((2 ^ (150 - k) : Nat) : ℚ) := by
  split
  · next h =>
    have e : (k : Int) - 150 = ((k - 150 : Nat) : Int) := by omega
    rw [e, zpow_natCast]
    push_cast
    rfl
  · next h =>
    have e : (k : Int) - 150 = -((150 - k : Nat) : Int) := by omega
    rw [e, zpow_neg, zpow_natCast]
    push_cast
    rw [one_div]

/-- Flooring the scaled significand is the shift performed on the bit
fields. -/
theorem floor_scaled_significand (s k : Nat) :
    ⌊(s : ℚ) * (2 : ℚ) ^ ((k : Int) - 150)⌋ =
      ((if 150 ≤ k then s * 2 ^ (k - 150) else s / 2 ^ (150 - k) : Nat) : Int) := by
  rw [two_zpow_scale]
  split
  · next h =>
    have e : (s : ℚ) * ((2 ^ (k - 150) : Nat) : ℚ) = ((s * 2 ^ (k - 150) : Nat) : ℚ) := by
      push_cast; rfl
    rw [e, Int.floor_natCast]
  · next h =>
    have e : (s : ℚ) * (1 / ((2 ^ (150 - k) : Nat) : ℚ)) =
        ((s : Int) : ℚ) / ((2 ^ (150 - k) : Nat) : ℚ) := by
      push_cast; ring
    rw [e, Rat.floor_intCast_div_natCast]
    push_cast
    rfl

/-- The magnitude of a finite float as a rational number. -/
theorem float_value_eq (f : Float32) (v : ℚ) (hv : float_value f = some v) :
    float_exponent f ≠ 255 ∧
      v = if float_sign f
          then -((float_significand f : ℚ) * (2 : ℚ) ^ ((float_scale f : Int) - 150))
          else (float_significand f : ℚ) * (2 : ℚ) ^ ((float_scale f : Int) - 150) := by
  unfold float_value at hv
  by_cases he : float_exponent f = 255
  · simp [he] at hv
  · rw [if_neg he] at hv
    exact ⟨he, (Option.some.inj hv).symm⟩

/-- Truncating the value of a finite float gives the signed integral
magnitude computed on the bit fields. -/
theorem truncateTowardZero_float_value (f : Float32) (v : ℚ) (hv : float_value f = some v) :
    truncateTowardZero v =
      if float_sign f then -(float_integral_magnitude f : Int)
      else (float_integral_magnitude f : Int) := by
  obtain ⟨_, hval⟩ := float_value_eq f v hv
  have hm : (0 : ℚ) ≤ (float_significand f : ℚ) * (2 : ℚ) ^ ((float_scale f : Int) - 150) := by
    positivity
  have hfl := floor_scaled_significand (float_significand f) (float_scale f)
  have hmag : ⌊(float_significand f : ℚ) * (2 : ℚ) ^ ((float_scale f : Int) - 150)⌋ =
      (float_integral_magnitude f : Int) := by
    rw [hfl]; rfl
  rw [hval]
  by_cases hs : float_sign f = true
  · rw [if_pos hs, if_pos hs, truncateTowardZero_neg, truncateTowardZero_of_nonneg _ hm, hmag]
  · rw [if_neg hs, if_neg hs, truncateTowardZero_of_nonneg _ hm, hmag]

/-- On a finite float the cover returns the truncated value when it is
representable and nothing otherwise. -/
theorem int32_for_float_eq (f : Float32) (v : ℚ) (hv : float_value f = some v) :
    int32_for_float f =
      if isInt32 (truncateTowardZero v) then some (truncateTowardZero v) else none := by
  obtain ⟨he, _⟩ := float_value_eq f v hv
  rw [truncateTowardZero_float_value f v hv]
  unfold int32_for_float
  rw [if_neg he]

theorem float_fraction_lt (f : Float32) : float_fraction f < 8388608 := by
  unfold float_fraction
  omega

theorem float_significand_lt (f : Float32) : float_significand f < 16777216 := by
  have h := float_fraction_lt f
  unfold float_significand
  split <;> omega

/-- A finite float of scale at least 128 is a multiple of `2 ^ (-22)`. -/
theorem two_zpow_scale_of_ge (k : Nat) (hk : 128 ≤ k) :
    (2 : ℚ) ^ ((k : Int) - 150) = ((2 ^ (k - 128) : Nat) : ℚ) / 4194304 := by
  have e : (k : Int) - 150 = ((k - 128 : Nat) : Int) + (-22) := by omega
  rw [e, zpow_add₀ (by norm_num : (2 : ℚ) ≠ 0), zpow_natCast]
  push_cast
  norm_num
  ring

/-- A finite float of scale below 128 has magnitude below 2. -/
theorem two_zpow_scale_of_lt (k : Nat) (hk : k < 128) :
    (2 : ℚ) ^ ((k : Int) - 150) ≤ 1 / 8388608 := by
  have e : (k : Int) - 150 = -((150 - k : Nat) : Int) := by omega
  rw [e, zpow_neg, zpow_natCast, ← one_div]
  have h23 : (2 : ℚ) ^ 23 ≤ (2 : ℚ) ^ (150 - k) :=
    pow_le_pow_right₀ (by norm_num) (by omega)
  have hpos : (0 : ℚ) < (2 : ℚ) ^ 23 := by positivity
  have h := one_div_le_one_div_of_le hpos h23
  norm_num at h ⊢
  exact h

/-- No multiple of `2 ^ (-22)` is closer to `39/10` than `16357786 / 2 ^ 22`. -/
theorem multiple_far_from_3_9 (K : Nat) :
    (1 : ℚ) / 10485760 ≤ |(K : ℚ) / 4194304 - 39 / 10| := by
  rcases Nat.lt_or_ge K 16357786 with h | h
  · have hK : (K : ℚ) ≤ 16357785 := by exact_mod_cast Nat.lt_succ_iff.mp h
    have hle : (1 : ℚ) / 10485760 ≤ -((K : ℚ) / 4194304 - 39 / 10) := by linarith
    exact le_trans hle (neg_le_abs _)
  · have hK : (16357786 : ℚ) ≤ (K : ℚ) := by exact_mod_cast h
    have hle : (1 : ℚ) / 10485760 ≤ (K : ℚ) / 4194304 - 39 / 10 := by linarith
    exact le_trans hle (le_abs_self _)

/-- The magnitude of every float is at least `1 / 10485760` away from `39/10`. -/
theorem float_magnitude_far_from_3_9 (g : Float32) :
    (1 : ℚ) / 10485760 ≤
      |(float_significand g : ℚ) * (2 : ℚ) ^ ((float_scale g : Int) - 150) - 39 / 10| := by
  have hs := float_significand_lt g
  have hsq : (float_significand g : ℚ) ≤ 16777215 := by
    exact_mod_cast Nat.lt_succ_iff.mp hs
  have hp0 : (0 : ℚ) < (2 : ℚ) ^ ((float_scale g : Int) - 150) := by positivity
  rcases Nat.lt_or_ge (float_scale g) 128 with hk | hk
  · have hz := two_zpow_scale_of_lt (float_scale g) hk
    have hlt : (float_significand g : ℚ) * (2 : ℚ) ^ ((float_scale g : Int) - 150) ≤
        16777215 * (1 / 8388608) :=
      mul_le_mul hsq hz (le_of_lt hp0) (by norm_num)
    have hle : (1 : ℚ) / 10485760 ≤
        -((float_significand g : ℚ) * (2 : ℚ) ^ ((float_scale g : Int) - 150) - 39 / 10) := by
      linarith
    exact le_trans hle (neg_le_abs _)
  · have hz := two_zpow_scale_of_ge (float_scale g) hk
    have hK : (float_significand g : ℚ) * (2 : ℚ) ^ ((float_scale g : Int) - 150) =
        ((float_significand g * 2 ^ (float_scale g - 128) : Nat) : ℚ) / 4194304 := by
      rw [hz]
      push_cast
      ring
    rw [hK]
    exact multiple_far_from_3_9 _

/-- Every finite float is at least `1 / 10485760` away from `39/10`. -/
theorem float_value_far_from_3_9 (g : Float32) (v : ℚ) (hv : float_value g = some v) :
    (1 : ℚ) / 10485760 ≤ |v - 39 / 10| := by
  obtain ⟨_, hval⟩ := float_value_eq g v hv
  have hm0 : (0 : ℚ) ≤ (float_significand g : ℚ) * (2 : ℚ) ^ ((float_scale g : Int) - 150) := by
    positivity
  by_cases hsign : float_sign g = true
  · rw [if_pos hsign] at hval
    have hle : (1 : ℚ) / 10485760 ≤ -(v - 39 / 10) := by linarith
    exact le_trans hle (neg_le_abs _)
  · rw [if_neg hsign] at hval
    rw [hval]
    exact float_magnitude_far_from_3_9 g

/-- Every finite float is at least `1 / 10485760` away from `-39/10`. -/
theorem float_value_far_from_neg_3_9 (g : Float32) (v : ℚ) (hv : float_value g = some v) :
    (1 : ℚ) / 10485760 ≤ |v - (-(39 / 10))| := by
  obtain ⟨_, hval⟩ := float_value_eq g v hv
  have hm0 : (0 : ℚ) ≤ (float_significand g : ℚ) * (2 : ℚ) ^ ((float_scale g : Int) - 150) := by
    positivity
  by_cases hsign : float_sign g = true
  · rw [if_pos hsign] at hval
    have h := float_magnitude_far_from_3_9 g
    have e : v - (-(39 / 10)) =
        -((float_significand g : ℚ) * (2 : ℚ) ^ ((float_scale g : Int) - 150) - 39 / 10) := by
      rw [hval]; ring
    rw [e, abs_neg]
    exact h
  · rw [if_neg hsign] at hval
    have hle : (1 : ℚ) / 10485760 ≤ v - (-(39 / 10)) := by linarith
    exact le_trans hle (le_abs_self _)

/-- The value of the pattern `0x4079999A`. -/
theorem float_value_3_9 : float_value float_3_9 = some (8178893 / 2097152) := by
  have he : float_exponent float_3_9 = 128 := by decide
  have hs : float_sign float_3_9 = false := by decide
  have hm : float_significand float_3_9 = 16357786 := by decide
  have hk : float_scale float_3_9 = 128 := by decide
  unfold float_value
  rw [he, hs, hm, hk]
  norm_num

/-- The value of the pattern `0xC079999A`. -/
theorem float_value_neg_3_9 : float_value float_neg_3_9 = some (-(8178893 / 2097152)) := by
  have he : float_exponent float_neg_3_9 = 128 := by decide
  have hs : float_sign float_neg_3_9 = true := by decide
  have hm : float_significand float_neg_3_9 = 16357786 := by decide
  have hk : float_scale float_neg_3_9 = 128 := by decide
  unfold float_value
  rw [he, hs, hm, hk]
  norm_num

/-- Truncation of a rational in the `int32_t` range is representable. -/
theorem isInt32_truncateTowardZero (v : ℚ) (hlo : (-2147483648 : ℚ) ≤ v)
    (hhi : v < 2147483648) : isInt32 (truncateTowardZero v) := by
  unfold truncateTowardZero isInt32 INT32_MIN INT32_MAX
  by_cases hv : 0 ≤ v
  · rw [if_pos hv]
    constructor
    · exact Int.le_floor.mpr (by push_cast; linarith)
    · have : ⌊v⌋ < 2147483648 := Int.floor_lt.mpr (by push_cast; linarith)
      omega
  · rw [if_neg hv]
    have hv0 : v < 0 := not_le.mp hv
    constructor
    · have h1 := Int.le_ceil v
      have : ((-2147483648 : Int) : ℚ) ≤ ((⌈v⌉ : Int) : ℚ) := by push_cast; linarith
      exact_mod_cast this
    · exact Int.ceil_le.mpr (by push_cast; linarith)

/-! ## Claims on `int32_divide` and `int32_remainder` -/

/-- C1: for `int32_t` values `n`, `d` with `d ≠ 0` and not `(INT32_MIN, -1)`,
both covers return a value, `int32_divide n d * d + int32_remainder n d = n`,
and the quotient, the remainder, the product and the sum all stay within the
`int32_t` range. -/
theorem int32_divide_mul_add_remainder (n d : Int) (hn : isInt32 n) (_hd : isInt32 d)
    (hd0 : d ≠ 0) (hov : ¬ (n = INT32_MIN ∧ d = -1)) :
    ∃ q r, int32_divide n d = some q ∧ int32_remainder n d = some r ∧
      isInt32 q ∧ isInt32 r ∧ isInt32 (q * d) ∧ isInt32 (q * d + r) ∧
      q * d + r = n := by
  have hq : isInt32 (Int.tdiv n d) := isInt32_tdiv n d hn hd0 hov
  have he : Int.tdiv n d * d + Int.tmod n d = n := Int.tdiv_add_tmod' n d
  refine ⟨Int.tdiv n d, Int.tmod n d, ?_, ?_, hq, ?_, ?_, ?_, he⟩
  · simp [int32_divide, hd0, hq]
  · simp [int32_remainder, hd0, hq]
  · unfold isInt32 INT32_MIN INT32_MAX at *
    rcases le_total 0 n with h | h
    · have := tdiv_mul_bounds_of_nonneg n d h
      omega
    · have := tdiv_mul_bounds_of_nonpos n d h
      omega
  · unfold isInt32 INT32_MIN INT32_MAX at *
    rcases le_total 0 n with h | h
    · have := tdiv_mul_bounds_of_nonneg n d h
      omega
    · have := tdiv_mul_bounds_of_nonpos n d h
      omega
  · rw [he]; exact hn

/-- Witness for C1 at `n = -7`, `d = 2`. -/
theorem int32_divide_mul_add_remainder_witness :
    ∃ q r, int32_divide (-7) 2 = some q ∧ int32_remainder (-7) 2 = some r ∧
      isInt32 q ∧ isInt32 r ∧ isInt32 (q * 2) ∧ isInt32 (q * 2 + r) ∧
      q * 2 + r = -7 :=
  int32_divide_mul_add_remainder (-7) 2 (by decide) (by decide) (by decide) (by decide)

/-- C2: for `int32_t` values `n`, `d` with `d ≠ 0` and not `(INT32_MIN, -1)`,
`int32_divide n d` returns the exact rational quotient `n / d` rounded toward
zero: the integer of largest magnitude with `|q| * |d| ≤ |n|`, carrying the
sign of `n * d`.  It is one more than the floor whenever the quotient is
negative and not an integer, and it is not the nearest integer whenever the
quotient is more than one half away from it. -/
theorem int32_divide_truncates (n d : Int) (hn : isInt32 n) (_hd : isInt32 d)
    (hd0 : d ≠ 0) (hov : ¬ (n = INT32_MIN ∧ d = -1)) :
    ∃ q, int32_divide n d = some q ∧
      q = truncateTowardZero ((n : ℚ) / (d : ℚ)) ∧
      q = Int.sign (n * d) * ((n.natAbs / d.natAbs : Nat) : Int) ∧
      q.natAbs * d.natAbs ≤ n.natAbs ∧
      (∀ m : Nat, m * d.natAbs ≤ n.natAbs → m ≤ q.natAbs) ∧
      ((n : ℚ) / (d : ℚ) < 0 → (q : ℚ) ≠ (n : ℚ) / (d : ℚ) →
        q = ⌊(n : ℚ) / (d : ℚ)⌋ + 1) ∧
      (1 / 2 < |(n : ℚ) / (d : ℚ) - (q : ℚ)| → q ≠ round ((n : ℚ) / (d : ℚ))) := by
  have hq : isInt32 (Int.tdiv n d) := isInt32_tdiv n d hn hd0 hov
  have habs : (Int.tdiv n d).natAbs = n.natAbs / d.natAbs := Int.natAbs_tdiv n d
  have hdpos : 0 < d.natAbs := Int.natAbs_pos.mpr hd0
  have htr : truncateTowardZero ((n : ℚ) / (d : ℚ)) = Int.tdiv n d :=
    truncateTowardZero_div n d
  refine ⟨Int.tdiv n d, ?_, htr.symm, tdiv_eq_sign_mul_natAbs_div n d, ?_, ?_, ?_, ?_⟩
  · simp [int32_divide, hd0, hq]
  · rw [habs]; exact Nat.div_mul_le_self _ _
  · intro m hm
    rw [habs]
    exact (Nat.le_div_iff_mul_le hdpos).mpr hm
  · intro hneg hne
    have hc : Int.tdiv n d = ⌈(n : ℚ) / (d : ℚ)⌉ := by
      rw [← htr]; unfold truncateTowardZero
      rw [if_neg (not_le.mpr hneg)]
    rw [hc] at hne ⊢
    rw [Int.ceil_eq_iff]
    have h1 := Int.floor_le ((n : ℚ) / (d : ℚ))
    have h2 := Int.lt_floor_add_one ((n : ℚ) / (d : ℚ))
    have h3 := Int.le_ceil ((n : ℚ) / (d : ℚ))
    constructor
    · push_cast
      rcases lt_or_eq_of_le h1 with h | h
      · linarith
      · exfalso
        apply hne
        rw [← h, Int.ceil_intCast]
    · push_cast; linarith
  · intro hfar heq
    have h := abs_sub_round ((n : ℚ) / (d : ℚ))
    rw [← heq] at h
    linarith

/-- Witness for C2 at `n = -7`, `d = 2`. -/
theorem int32_divide_truncates_witness :
    ∃ q, int32_divide (-7) 2 = some q ∧
      q = truncateTowardZero (((-7 : Int) : ℚ) / ((2 : Int) : ℚ)) ∧
      q = Int.sign (-7 * 2) * (((-7 : Int).natAbs / (2 : Int).natAbs : Nat) : Int) ∧
      q.natAbs * (2 : Int).natAbs ≤ (-7 : Int).natAbs ∧
      (∀ m : Nat, m * (2 : Int).natAbs ≤ (-7 : Int).natAbs → m ≤ q.natAbs) ∧
      (((-7 : Int) : ℚ) / ((2 : Int) : ℚ) < 0 → (q : ℚ) ≠ ((-7 : Int) : ℚ) / ((2 : Int) : ℚ) →
        q = ⌊((-7 : Int) : ℚ) / ((2 : Int) : ℚ)⌋ + 1) ∧
      (1 / 2 < |((-7 : Int) : ℚ) / ((2 : Int) : ℚ) - (q : ℚ)| →
        q ≠ round (((-7 : Int) : ℚ) / ((2 : Int) : ℚ))) :=
  int32_divide_truncates (-7) 2 (by decide) (by decide) (by decide) (by decide)

/-- C3: for `int32_t` values `n`, `d` with `d ≠ 0` and not `(INT32_MIN, -1)`,
`int32_remainder n d` returns `n` minus `d` times the quotient of `n` by `d`
rounded toward zero.  When it is non-zero and `n` is negative it differs from
the Euclidean remainder, and for a positive `d` from the floored remainder. -/
theorem int32_remainder_truncating (n d : Int) (hn : isInt32 n) (_hd : isInt32 d)
    (hd0 : d ≠ 0) (hov : ¬ (n = INT32_MIN ∧ d = -1)) :
    ∃ r, int32_remainder n d = some r ∧
      r = n - d * truncateTowardZero ((n : ℚ) / (d : ℚ)) ∧
      (n < 0 → r ≠ 0 → r ≠ Int.emod n d) ∧
      (n < 0 → 0 < d → r ≠ 0 → r ≠ Int.fmod n d) := by
  have hq : isInt32 (Int.tdiv n d) := isInt32_tdiv n d hn hd0 hov
  have hle : n < 0 → Int.tmod n d ≤ 0 := fun h => tmod_nonpos_of_nonpos n d (le_of_lt h)
  have hem : 0 ≤ Int.emod n d := Int.emod_nonneg n hd0
  refine ⟨Int.tmod n d, ?_, ?_, ?_, ?_⟩
  · simp [int32_remainder, hd0, hq]
  · rw [truncateTowardZero_div, Int.tmod_def]
  · intro h0 hr heq
    have := hle h0
    omega
  · intro h0 hdpos hr heq
    have := hle h0
    have hf : Int.fmod n d = Int.emod n d := Int.fmod_eq_emod n (le_of_lt hdpos)
    omega

/-- Witness for C3 at `n = -7`, `d = 2`. -/
theorem int32_remainder_truncating_witness :
    ∃ r, int32_remainder (-7) 2 = some r ∧
      r = -7 - 2 * truncateTowardZero (((-7 : Int) : ℚ) / ((2 : Int) : ℚ)) ∧
      ((-7 : Int) < 0 → r ≠ 0 → r ≠ Int.emod (-7) 2) ∧
      ((-7 : Int) < 0 → (0 : Int) < 2 → r ≠ 0 → r ≠ Int.fmod (-7) 2) :=
  int32_remainder_truncating (-7) 2 (by decide) (by decide) (by decide) (by decide)

/-- C4: for `int32_t` values `n`, `d` with `d ≠ 0` and not `(INT32_MIN, -1)`,
`int32_remainder n d` is zero or has the sign of `n`: it is `≥ 0` when
`n ≥ 0` and `≤ 0` when `n ≤ 0`, whatever the sign of `d`. -/
theorem int32_remainder_sign (n d : Int) (hn : isInt32 n) (_hd : isInt32 d)
    (hd0 : d ≠ 0) (hov : ¬ (n = INT32_MIN ∧ d = -1)) :
    ∃ r, int32_remainder n d = some r ∧ (0 ≤ n → 0 ≤ r) ∧ (n ≤ 0 → r ≤ 0) := by
  have hq : isInt32 (Int.tdiv n d) := isInt32_tdiv n d hn hd0 hov
  refine ⟨Int.tmod n d, ?_, fun h => Int.tmod_nonneg d h, fun h => tmod_nonpos_of_nonpos n d h⟩
  simp [int32_remainder, hd0, hq]

/-- Witness for C4 at `n = -7`, `d = -2`. -/
theorem int32_remainder_sign_witness :
    ∃ r, int32_remainder (-7) (-2) = some r ∧ ((0 : Int) ≤ -7 → 0 ≤ r) ∧
      ((-7 : Int) ≤ 0 → r ≤ 0) :=
  int32_remainder_sign (-7) (-2) (by decide) (by decide) (by decide) (by decide)

/-- The only `int32_t` pair with a non-zero divisor whose truncating quotient
is not representable is `(INT32_MIN, -1)`. -/
theorem not_isInt32_tdiv_iff (n d : Int) (hn : isInt32 n) (hd0 : d ≠ 0) :
    ¬ isInt32 (Int.tdiv n d) ↔ (n = INT32_MIN ∧ d = -1) := by
  constructor
  · intro h
    by_contra hov
    exact h (isInt32_tdiv n d hn hd0 hov)
  · rintro ⟨rfl, rfl⟩
    decide

/-- ISO C defines no result for `n / d` exactly when `d = 0` or
`(n, d) = (INT32_MIN, -1)`. -/
theorem int32_divide_eq_none_iff (n d : Int) (hn : isInt32 n) :
    int32_divide n d = none ↔ (d = 0 ∨ (n = INT32_MIN ∧ d = -1)) := by
  by_cases hd0 : d = 0
  · simp [int32_divide, hd0]
  · have hiff := not_isInt32_tdiv_iff n d hn hd0
    by_cases hq : isInt32 (Int.tdiv n d)
    · have : ¬ (n = INT32_MIN ∧ d = -1) := fun h => (hiff.mpr h) hq
      simp [int32_divide, hd0, hq, this]
    · simp only [int32_divide, if_neg hd0, if_neg hq, true_iff]
      exact Or.inr (hiff.mp hq)

/-- ISO C defines no result for `n % d` exactly when `d = 0` or
`(n, d) = (INT32_MIN, -1)`. -/
theorem int32_remainder_eq_none_iff (n d : Int) (hn : isInt32 n) :
    int32_remainder n d = none ↔ (d = 0 ∨ (n = INT32_MIN ∧ d = -1)) := by
  by_cases hd0 : d = 0
  · simp [int32_remainder, hd0]
  · have hiff := not_isInt32_tdiv_iff n d hn hd0
    by_cases hq : isInt32 (Int.tdiv n d)
    · have : ¬ (n = INT32_MIN ∧ d = -1) := fun h => (hiff.mpr h) hq
      simp [int32_remainder, hd0, hq, this]
    · simp only [int32_remainder, if_neg hd0, if_neg hq, true_iff]
      exact Or.inr (hiff.mp hq)

/-- C5, as stated, fails: on the wrapping target
`int32_divide INT32_MIN (-1)` returns `INT32_MIN` instead of failing, so a
build does not fail "if and only if `d = 0` or `(n, d) = (INT32_MIN, -1)`". -/
theorem int32_divide_overflow_returns :
    int32_divide_on wrapping_target INT32_MIN (-1) = some INT32_MIN ∧
      ¬ (int32_divide_on wrapping_target INT32_MIN (-1) = none ↔
          ((-1 : Int) = 0 ∨ (INT32_MIN = INT32_MIN ∧ (-1 : Int) = -1))) := by
  have h : int32_divide_on wrapping_target INT32_MIN (-1) = some INT32_MIN := by decide
  refine ⟨h, ?_⟩
  intro hiff
  have hnone := hiff.mpr (Or.inr ⟨rfl, rfl⟩)
  rw [h] at hnone
  exact Option.noConfusion hnone

/-- C5, amended: for `int32_t` values `n`, `d`, the result of a build of
`int32_divide` is the same on every target if and only if `d ≠ 0` and
`(n, d) ≠ (INT32_MIN, -1)`; on each such pair every build returns the
quotient `n / d` truncated toward zero; on the two excluded cases the cover,
having no guard, returns what the target's division yields. -/
theorem int32_divide_on_fixed_iff (T : Target) (n d : Int) (hn : isInt32 n)
    (_hd : isInt32 d) :
    ((∀ T₁ T₂ : Target, int32_divide_on T₁ n d = int32_divide_on T₂ n d) ↔
        ¬ (d = 0 ∨ (n = INT32_MIN ∧ d = -1))) ∧
      (¬ (d = 0 ∨ (n = INT32_MIN ∧ d = -1)) →
        int32_divide_on T n d = some (truncateTowardZero ((n : ℚ) / (d : ℚ)))) ∧
      ((d = 0 ∨ (n = INT32_MIN ∧ d = -1)) →
        int32_divide_on T n d = T.divide_undefined n d) := by
  have hnone := int32_divide_eq_none_iff n d hn
  have hsome : ¬ (d = 0 ∨ (n = INT32_MIN ∧ d = -1)) →
      int32_divide n d = some (Int.tdiv n d) := by
    intro hgood
    have hd0 : d ≠ 0 := fun h => hgood (Or.inl h)
    have hq : isInt32 (Int.tdiv n d) :=
      isInt32_tdiv n d hn hd0 (fun h => hgood (Or.inr h))
    simp [int32_divide, hd0, hq]
  refine ⟨⟨?_, ?_⟩, ?_, ?_⟩
  · intro hall hbad
    have h0 := hnone.mpr hbad
    have h := hall ⟨fun _ _ => none, fun _ _ => none, fun _ => none⟩
      ⟨fun _ _ => some 0, fun _ _ => none, fun _ => none⟩
    simp only [int32_divide_on, h0] at h
    exact Option.noConfusion h
  · intro hgood T₁ T₂
    simp only [int32_divide_on, hsome hgood]
  · intro hgood
    simp only [int32_divide_on, hsome hgood, truncateTowardZero_div]
  · intro hbad
    simp only [int32_divide_on, hnone.mpr hbad]

/-- Witness for the amended C5 at `n = INT32_MIN`, `d = -1` on the wrapping
target. -/
theorem int32_divide_on_fixed_iff_witness :
    ((∀ T₁ T₂ : Target,
          int32_divide_on T₁ INT32_MIN (-1) = int32_divide_on T₂ INT32_MIN (-1)) ↔
        ¬ ((-1 : Int) = 0 ∨ (INT32_MIN = INT32_MIN ∧ (-1 : Int) = -1))) ∧
      (¬ ((-1 : Int) = 0 ∨ (INT32_MIN = INT32_MIN ∧ (-1 : Int) = -1)) →
        int32_divide_on wrapping_target INT32_MIN (-1) =
          some (truncateTowardZero ((INT32_MIN : ℚ) / ((-1 : Int) : ℚ)))) ∧
      (((-1 : Int) = 0 ∨ (INT32_MIN = INT32_MIN ∧ (-1 : Int) = -1)) →
        int32_divide_on wrapping_target INT32_MIN (-1) =
          wrapping_target.divide_undefined INT32_MIN (-1)) :=
  int32_divide_on_fixed_iff wrapping_target INT32_MIN (-1) (by decide) (by decide)

/-- C6, as stated, fails: on the wrapping target
`int32_remainder INT32_MIN (-1)` returns `0` instead of failing. -/
theorem int32_remainder_overflow_returns :
    int32_remainder_on wrapping_target INT32_MIN (-1) = some 0 ∧
      ¬ (int32_remainder_on wrapping_target INT32_MIN (-1) = none ↔
          ((-1 : Int) = 0 ∨ (INT32_MIN = INT32_MIN ∧ (-1 : Int) = -1))) := by
  have h : int32_remainder_on wrapping_target INT32_MIN (-1) = some 0 := by decide
  refine ⟨h, ?_⟩
  intro hiff
  have hnone := hiff.mpr (Or.inr ⟨rfl, rfl⟩)
  rw [h] at hnone
  exact Option.noConfusion hnone

/-- C6, amended: for `int32_t` values `n`, `d`, the result of a build of
`int32_remainder` is the same on every target on exactly the pairs on which
that of `int32_divide` is, those with `d ≠ 0` and `(n, d) ≠ (INT32_MIN, -1)`;
on each such pair every build returns `n` minus `d` times the quotient
truncated toward zero; on the two excluded cases the cover, having no guard,
returns what the target's remainder yields. -/
theorem int32_remainder_on_fixed_iff (T : Target) (n d : Int) (hn : isInt32 n)
    (_hd : isInt32 d) :
    ((∀ T₁ T₂ : Target, int32_remainder_on T₁ n d = int32_remainder_on T₂ n d) ↔
        ¬ (d = 0 ∨ (n = INT32_MIN ∧ d = -1))) ∧
      ((∀ T₁ T₂ : Target, int32_remainder_on T₁ n d = int32_remainder_on T₂ n d) ↔
        (∀ T₁ T₂ : Target, int32_divide_on T₁ n d = int32_divide_on T₂ n d)) ∧
      (¬ (d = 0 ∨ (n = INT32_MIN ∧ d = -1)) →
        int32_remainder_on T n d =
          some (n - d * truncateTowardZero ((n : ℚ) / (d : ℚ)))) ∧
      ((d = 0 ∨ (n = INT32_MIN ∧ d = -1)) →
        int32_remainder_on T n d = T.remainder_undefined n d) := by
  have hnone := int32_remainder_eq_none_iff n d hn
  have hdnone := int32_divide_eq_none_iff n d hn
  have hq : ¬ (d = 0 ∨ (n = INT32_MIN ∧ d = -1)) → d ≠ 0 ∧ isInt32 (Int.tdiv n d) := by
    intro hgood
    have hd0 : d ≠ 0 := fun h => hgood (Or.inl h)
    exact ⟨hd0, isInt32_tdiv n d hn hd0 (fun h => hgood (Or.inr h))⟩
  have hsome : ¬ (d = 0 ∨ (n = INT32_MIN ∧ d = -1)) →
      int32_remainder n d = some (Int.tmod n d) := by
    intro hgood
    obtain ⟨hd0, hq⟩ := hq hgood
    simp [int32_remainder, hd0, hq]
  have hdsome : ¬ (d = 0 ∨ (n = INT32_MIN ∧ d = -1)) →
      int32_divide n d = some (Int.tdiv n d) := by
    intro hgood
    obtain ⟨hd0, hq⟩ := hq hgood
    simp [int32_divide, hd0, hq]
  have hrem : (∀ T₁ T₂ : Target, int32_remainder_on T₁ n d = int32_remainder_on T₂ n d) ↔
      ¬ (d = 0 ∨ (n = INT32_MIN ∧ d = -1)) := by
    constructor
    · intro hall hbad
      have h0 := hnone.mpr hbad
      have h := hall ⟨fun _ _ => none, fun _ _ => none, fun _ => none⟩
        ⟨fun _ _ => none, fun _ _ => some 0, fun _ => none⟩
      simp only [int32_remainder_on, h0] at h
      exact Option.noConfusion h
    · intro hgood T₁ T₂
      simp only [int32_remainder_on, hsome hgood]
  have hdiv : (∀ T₁ T₂ : Target, int32_divide_on T₁ n d = int32_divide_on T₂ n d) ↔
      ¬ (d = 0 ∨ (n = INT32_MIN ∧ d = -1)) := by
    constructor
    · intro hall hbad
      have h0 := hdnone.mpr hbad
      have h := hall ⟨fun _ _ => none, fun _ _ => none, fun _ => none⟩
        ⟨fun _ _ => some 0, fun _ _ => none, fun _ => none⟩
      simp only [int32_divide_on, h0] at h
      exact Option.noConfusion h
    · intro hgood T₁ T₂
      simp only [int32_divide_on, hdsome hgood]
  refine ⟨hrem, hrem.trans hdiv.symm, ?_, ?_⟩
  · intro hgood
    simp only [int32_remainder_on, hsome hgood, truncateTowardZero_div, Int.tmod_def]
  · intro hbad
    simp only [int32_remainder_on, hnone.mpr hbad]

/-- Witness for the amended C6 at `n = INT32_MIN`, `d = -1` on the wrapping
target. -/
theorem int32_remainder_on_fixed_iff_witness :
    ((∀ T₁ T₂ : Target,
          int32_remainder_on T₁ INT32_MIN (-1) = int32_remainder_on T₂ INT32_MIN (-1)) ↔
        ¬ ((-1 : Int) = 0 ∨ (INT32_MIN = INT32_MIN ∧ (-1 : Int) = -1))) ∧
      ((∀ T₁ T₂ : Target,
          int32_remainder_on T₁ INT32_MIN (-1) = int32_remainder_on T₂ INT32_MIN (-1)) ↔
        (∀ T₁ T₂ : Target,
          int32_divide_on T₁ INT32_MIN (-1) = int32_divide_on T₂ INT32_MIN (-1))) ∧
      (¬ ((-1 : Int) = 0 ∨ (INT32_MIN = INT32_MIN ∧ (-1 : Int) = -1)) →
        int32_remainder_on wrapping_target INT32_MIN (-1) =
          some (INT32_MIN - (-1) * truncateTowardZero ((INT32_MIN : ℚ) / ((-1 : Int) : ℚ)))) ∧
      (((-1 : Int) = 0 ∨ (INT32_MIN = INT32_MIN ∧ (-1 : Int) = -1)) →
        int32_remainder_on wrapping_target INT32_MIN (-1) =
          wrapping_target.remainder_undefined INT32_MIN (-1)) :=
  int32_remainder_on_fixed_iff wrapping_target INT32_MIN (-1) (by decide) (by decide)

/-- C7: `int32_divide 7 2` returns `3`, `int32_divide (-7) 2` returns `-3`,
`int32_remainder 7 2` returns `1` and `int32_remainder (-7) 2` returns `-1`. -/
theorem int32_divide_remainder_examples :
    int32_divide 7 2 = some 3 ∧ int32_divide (-7) 2 = some (-3) ∧
      int32_remainder 7 2 = some 1 ∧ int32_remainder (-7) 2 = some (-1) := by
  refine ⟨by decide, by decide, by decide, by decide⟩

/-! ## Claims on `int32_for_float` -/

/-- C8: for every finite binary32 float `f` whose value `v` satisfies
`-2^31 ≤ v < 2^31`, `int32_for_float f` returns `v` truncated toward zero:
the integer obtained by discarding the fractional part, which has at most the
magnitude of `v` and is less than one away from it, whatever the sign. -/
theorem int32_for_float_truncates (f : Float32) (v : ℚ) (hv : float_value f = some v)
    (hlo : (-2147483648 : ℚ) ≤ v) (hhi : v < 2147483648) :
    int32_for_float f = some (truncateTowardZero v) ∧
      |((truncateTowardZero v : Int) : ℚ)| ≤ |v| ∧
      |v - ((truncateTowardZero v : Int) : ℚ)| < 1 := by
  refine ⟨?_, truncateTowardZero_bounds v⟩
  rw [int32_for_float_eq f v hv, if_pos (isInt32_truncateTowardZero v hlo hhi)]

/-- Witness for C8 at the float nearest to `-3.9`. -/
theorem int32_for_float_truncates_witness :
    int32_for_float float_neg_3_9 = some (truncateTowardZero (-(8178893 / 2097152))) ∧
      |((truncateTowardZero (-(8178893 / 2097152)) : Int) : ℚ)| ≤ |(-(8178893 / 2097152) : ℚ)| ∧
      |(-(8178893 / 2097152) : ℚ) - ((truncateTowardZero (-(8178893 / 2097152)) : Int) : ℚ)| < 1 :=
  int32_for_float_truncates float_neg_3_9 (-(8178893 / 2097152)) float_value_neg_3_9
    (by norm_num) (by norm_num)

/-- C9: `int32_for_float` applied to the binary32 float nearest to `3.9`
returns `3`, and applied to the binary32 float nearest to `-3.9` returns
`-3`; the two patterns `0x4079999A` and `0xC079999A` are those nearest
floats: no finite float is closer to `39/10`, respectively `-39/10`. -/
theorem int32_for_float_3_9 :
    int32_for_float float_3_9 = some 3 ∧ int32_for_float float_neg_3_9 = some (-3) ∧
      (∃ a, float_value float_3_9 = some a ∧
        ∀ g v, float_value g = some v → |a - 39 / 10| ≤ |v - 39 / 10|) ∧
      (∃ b, float_value float_neg_3_9 = some b ∧
        ∀ g v, float_value g = some v → |b - (-(39 / 10))| ≤ |v - (-(39 / 10))|) := by
  refine ⟨by decide, by decide, ⟨_, float_value_3_9, ?_⟩, ⟨_, float_value_neg_3_9, ?_⟩⟩
  · intro g v hv
    have h := float_value_far_from_3_9 g v hv
    have e : |(8178893 / 2097152 : ℚ) - 39 / 10| = 1 / 10485760 := by
      rw [abs_of_nonneg (by norm_num)]; norm_num
    rw [e]; exact h
  · intro g v hv
    have h := float_value_far_from_neg_3_9 g v hv
    have e : |(-(8178893 / 2097152) : ℚ) - (-(39 / 10))| = 1 / 10485760 := by
      rw [abs_of_nonpos (by norm_num)]; norm_num
    rw [e]; exact h

/-- ISO C defines no result for the conversion exactly when `f` is a NaN, an
infinity, or a finite float whose truncation is not representable. -/
theorem int32_for_float_eq_none_iff (f : Float32) :
    int32_for_float f = none ↔
      (float_isNaN f ∨ float_isInf f ∨
        ∃ v, float_value f = some v ∧ ¬ isInt32 (truncateTowardZero v)) := by
  by_cases he : float_exponent f = 255
  · have hnone : int32_for_float f = none := by
      unfold int32_for_float; rw [if_pos he]
    have hcls : float_isNaN f ∨ float_isInf f := by
      unfold float_isNaN float_isInf
      by_cases hfr : float_fraction f = 0
      · exact Or.inr ⟨he, hfr⟩
      · exact Or.inl ⟨he, hfr⟩
    constructor
    · intro _
      rcases hcls with h | h
      · exact Or.inl h
      · exact Or.inr (Or.inl h)
    · intro _; exact hnone
  · obtain ⟨v0, hv0⟩ : ∃ v0, float_value f = some v0 := by
      unfold float_value; rw [if_neg he]; exact ⟨_, rfl⟩
    have hres := int32_for_float_eq f v0 hv0
    constructor
    · intro hnone
      refine Or.inr (Or.inr ⟨v0, hv0, ?_⟩)
      intro hin
      rw [hres, if_pos hin] at hnone
      exact Option.noConfusion hnone
    · rintro (h | h | ⟨v, hv, hout⟩)
      · exact absurd h.1 he
      · exact absurd h.1 he
      · have hvv : v = v0 := Option.some.inj (hv.symm.trans hv0)
        subst hvv
        rw [hres, if_neg hout]

/-- The value of the pattern `0xCF800000`. -/
theorem float_value_neg_2_32 : float_value float_neg_2_32 = some (-4294967296) := by
  have he : float_exponent float_neg_2_32 = 159 := by decide
  have hs : float_sign float_neg_2_32 = true := by decide
  have hm : float_significand float_neg_2_32 = 8388608 := by decide
  have hk : float_scale float_neg_2_32 = 159 := by decide
  unfold float_value
  rw [he, hs, hm, hk]
  norm_num

/-- C10, as stated, fails: the float `-2^32` is finite with a truncation
below `-2^31`, yet on the wrapping target `int32_for_float` returns a result
for it, and that result is the clamped value `INT32_MIN`. -/
theorem int32_for_float_out_of_range_returns :
    (∃ v, float_value float_neg_2_32 = some v ∧ truncateTowardZero v = -4294967296 ∧
        ¬ isInt32 (truncateTowardZero v)) ∧
      int32_for_float_on wrapping_target float_neg_2_32 = some INT32_MIN ∧
      int32_for_float_on wrapping_target float_neg_2_32 ≠ none := by
  have ht : truncateTowardZero (-4294967296 : ℚ) = -4294967296 := by
    have h := truncateTowardZero_div (-4294967296) 1
    simpa using h
  refine ⟨⟨_, float_value_neg_2_32, ht, ?_⟩, by decide, by decide⟩
  rw [ht]
  decide

/-- C10, amended: the result of a build of `int32_for_float` is the same on
every target if and only if `f` is finite and its truncation toward zero lies
in `[-2^31, 2^31 - 1]`, where every build returns that truncation; when `f` is
a NaN, an infinity, or has a truncation outside the range, the cover, having
no guard, returns what the target's conversion yields. -/
theorem int32_for_float_on_fixed_iff (T : Target) (f : Float32) :
    ((∀ T₁ T₂ : Target, int32_for_float_on T₁ f = int32_for_float_on T₂ f) ↔
        ¬ (float_isNaN f ∨ float_isInf f ∨
          ∃ v, float_value f = some v ∧ ¬ isInt32 (truncateTowardZero v))) ∧
      (∀ v, float_value f = some v → isInt32 (truncateTowardZero v) →
        int32_for_float_on T f = some (truncateTowardZero v)) ∧
      ((float_isNaN f ∨ float_isInf f ∨
          ∃ v, float_value f = some v ∧ ¬ isInt32 (truncateTowardZero v)) →
        int32_for_float_on T f = T.convert_undefined f) := by
  have hnone := int32_for_float_eq_none_iff f
  refine ⟨⟨?_, ?_⟩, ?_, ?_⟩
  · intro hall hbad
    have h0 := hnone.mpr hbad
    have h := hall ⟨fun _ _ => none, fun _ _ => none, fun _ => none⟩
      ⟨fun _ _ => none, fun _ _ => none, fun _ => some 0⟩
    simp only [int32_for_float_on, h0] at h
    exact Option.noConfusion h
  · intro hgood T₁ T₂
    cases hres : int32_for_float f with
    | none => exact absurd (hnone.mp hres) hgood
    | some r => simp only [int32_for_float_on, hres]
  · intro v hv hin
    have hres := int32_for_float_eq f v hv
    rw [if_pos hin] at hres
    simp only [int32_for_float_on, hres]
  · intro hbad
    simp only [int32_for_float_on, hnone.mpr hbad]

/-! ## Helper lemmas for the implicit claims -/

/-- The truncating remainder is strictly smaller in magnitude than a non-zero
divisor. -/
theorem natAbs_tmod_lt (a b : Int) (hb : b ≠ 0) :
    (Int.tmod a b).natAbs < b.natAbs := by
  have upper : ∀ x : Int, Int.tmod x b < (b.natAbs : Int) := by
    intro x
    rcases lt_or_gt_of_ne hb with h | h
    · have h1 := Int.tmod_lt_of_pos x (show (0 : Int) < -b by omega)
      rw [Int.tmod_neg] at h1
      omega
    · have h1 := Int.tmod_lt_of_pos x h
      omega
  have h1 := upper a
  have h2 := upper (-a)
  rw [neg_tmod_eq] at h2
  omega

/-- A decomposition `n = q * d + r` with `|r| < |d|` and `r` zero or of the
sign of `n` is the truncating one. -/
theorem tdiv_tmod_unique (n d q r : Int) (hd0 : d ≠ 0) (he : n = q * d + r)
    (hlt : r.natAbs < d.natAbs) (hpos : 0 ≤ n → 0 ≤ r) (hneg : n ≤ 0 → r ≤ 0) :
    q = Int.tdiv n d ∧ r = Int.tmod n d := by
  have he0 : Int.tdiv n d * d + Int.tmod n d = n := Int.tdiv_add_tmod' n d
  have hlt0 := natAbs_tmod_lt n d hd0
  have hpos0 : 0 ≤ n → 0 ≤ Int.tmod n d := fun h => Int.tmod_nonneg d h
  have hneg0 : n ≤ 0 → Int.tmod n d ≤ 0 := fun h => tmod_nonpos_of_nonpos n d h
  have hdvd : d ∣ (r - Int.tmod n d) := by
    refine ⟨Int.tdiv n d - q, ?_⟩
    have : r - Int.tmod n d = (Int.tdiv n d * d + Int.tmod n d) - q * d - Int.tmod n d := by
      rw [he0]; omega
    rw [this]; ring
  have hsmall : (r - Int.tmod n d).natAbs < d.natAbs := by
    rcases le_total 0 n with h | h
    · have := hpos h
      have := hpos0 h
      omega
    · have := hneg h
      have := hneg0 h
      omega
  have hr : r - Int.tmod n d = 0 := Int.eq_zero_of_dvd_of_natAbs_lt_natAbs hdvd hsmall
  have hr2 : r = Int.tmod n d := by omega
  refine ⟨?_, hr2⟩
  have hq : q * d = Int.tdiv n d * d := by
    have : q * d + r = Int.tdiv n d * d + Int.tmod n d := by rw [he0, ← he]
    rw [hr2] at this
    omega
  exact mul_right_cancel₀ hd0 hq

/-! ## Implicit claims on `int32_divide` and `int32_remainder` -/

/-- C11: for `int32_t` values `n`, `d` with `d ≠ 0` and not `(INT32_MIN, -1)`,
the pair `(int32_divide n d, int32_remainder n d)` is the unique pair of
integers `(q, r)` with `n = q * d + r`, `|r| < |d|`, and `r` zero or of the
sign of `n`. -/
theorem int32_divide_remainder_unique (n d : Int) (hn : isInt32 n) (_hd : isInt32 d)
    (hd0 : d ≠ 0) (hov : ¬ (n = INT32_MIN ∧ d = -1)) :
    ∃ q r, int32_divide n d = some q ∧ int32_remainder n d = some r ∧
      n = q * d + r ∧ r.natAbs < d.natAbs ∧ (0 ≤ n → 0 ≤ r) ∧ (n ≤ 0 → r ≤ 0) ∧
      ∀ q' r' : Int, n = q' * d + r' → r'.natAbs < d.natAbs →
        (0 ≤ n → 0 ≤ r') → (n ≤ 0 → r' ≤ 0) → q' = q ∧ r' = r := by
  have hq : isInt32 (Int.tdiv n d) := isInt32_tdiv n d hn hd0 hov
  refine ⟨Int.tdiv n d, Int.tmod n d, ?_, ?_, (Int.tdiv_add_tmod' n d).symm,
    natAbs_tmod_lt n d hd0, fun h => Int.tmod_nonneg d h,
    fun h => tmod_nonpos_of_nonpos n d h, ?_⟩
  · simp [int32_divide, hd0, hq]
  · simp [int32_remainder, hd0, hq]
  · intro q' r' he hlt hpos hneg
    exact tdiv_tmod_unique n d q' r' hd0 he hlt hpos hneg

/-- Witness for C11 at `n = -7`, `d = 2`. -/
theorem int32_divide_remainder_unique_witness :
    ∃ q r, int32_divide (-7) 2 = some q ∧ int32_remainder (-7) 2 = some r ∧
      (-7 : Int) = q * 2 + r ∧ r.natAbs < (2 : Int).natAbs ∧
      ((0 : Int) ≤ -7 → 0 ≤ r) ∧ ((-7 : Int) ≤ 0 → r ≤ 0) ∧
      ∀ q' r' : Int, (-7 : Int) = q' * 2 + r' → r'.natAbs < (2 : Int).natAbs →
        ((0 : Int) ≤ -7 → 0 ≤ r') → ((-7 : Int) ≤ 0 → r' ≤ 0) → q' = q ∧ r' = r :=
  int32_divide_remainder_unique (-7) 2 (by decide) (by decide) (by decide) (by decide)

/-- C12: for `int32_t` values `n`, `d` with `d ≠ 0`, unless
`(n, d) = (INT32_MIN, -1)` the unbounded-integer truncated quotient of `n` by
`d` lies in `[-2^31, 2^31 - 1]`, has magnitude at most `|n|`, and is what
`int32_divide` returns; the quotient is unrepresentable exactly for
`(INT32_MIN, -1)`, where it is `2^31`. -/
theorem int32_divide_quotient_representable (n d : Int) (hn : isInt32 n)
    (_hd : isInt32 d) (hd0 : d ≠ 0) :
    (¬ (n = INT32_MIN ∧ d = -1) →
        isInt32 (truncateTowardZero ((n : ℚ) / (d : ℚ))) ∧
        (truncateTowardZero ((n : ℚ) / (d : ℚ))).natAbs ≤ n.natAbs ∧
        int32_divide n d = some (truncateTowardZero ((n : ℚ) / (d : ℚ)))) ∧
      (¬ isInt32 (truncateTowardZero ((n : ℚ) / (d : ℚ))) ↔ (n = INT32_MIN ∧ d = -1)) ∧
      truncateTowardZero (((INT32_MIN : Int) : ℚ) / (((-1 : Int)) : ℚ)) = 2147483648 := by
  rw [truncateTowardZero_div n d, truncateTowardZero_div INT32_MIN (-1)]
  refine ⟨?_, not_isInt32_tdiv_iff n d hn hd0, by decide⟩
  intro hov
  have hq : isInt32 (Int.tdiv n d) := isInt32_tdiv n d hn hd0 hov
  refine ⟨hq, ?_, ?_⟩
  · have habs : (Int.tdiv n d).natAbs = n.natAbs / d.natAbs := Int.natAbs_tdiv n d
    rw [habs]
    exact Nat.div_le_self _ _
  · simp [int32_divide, hd0, hq]

/-- Witness for C12 at `n = INT32_MIN`, `d = 1`. -/
theorem int32_divide_quotient_representable_witness :
    (¬ (INT32_MIN = INT32_MIN ∧ (1 : Int) = -1) →
        isInt32 (truncateTowardZero ((INT32_MIN : ℚ) / ((1 : Int) : ℚ))) ∧
        (truncateTowardZero ((INT32_MIN : ℚ) / ((1 : Int) : ℚ))).natAbs ≤ INT32_MIN.natAbs ∧
        int32_divide INT32_MIN 1 =
          some (truncateTowardZero ((INT32_MIN : ℚ) / ((1 : Int) : ℚ)))) ∧
      (¬ isInt32 (truncateTowardZero ((INT32_MIN : ℚ) / ((1 : Int) : ℚ))) ↔
        (INT32_MIN = INT32_MIN ∧ (1 : Int) = -1)) ∧
      truncateTowardZero (((INT32_MIN : Int) : ℚ) / (((-1 : Int)) : ℚ)) = 2147483648 :=
  int32_divide_quotient_representable INT32_MIN 1 (by decide) (by decide) (by decide)

/-- C13: for an `int32_t` value `n ≠ INT32_MIN` and an `int32_t` value
`d ≠ 0`, negating the dividend negates both results:
`int32_divide (-n) d = -int32_divide n d` and
`int32_remainder (-n) d = -int32_remainder n d`, all four being defined.
Floor division lacks this symmetry, as `-7` and `2` show. -/
theorem int32_divide_remainder_neg (n d : Int) (hn : isInt32 n) (_hd : isInt32 d)
    (hmin : n ≠ INT32_MIN) (hd0 : d ≠ 0) :
    (∃ q r, int32_divide n d = some q ∧ int32_remainder n d = some r ∧
      int32_divide (-n) d = some (-q) ∧ int32_remainder (-n) d = some (-r)) ∧
      Int.fdiv (-7) 2 ≠ -Int.fdiv 7 2 := by
  have hn' : isInt32 (-n) := by
    unfold isInt32 INT32_MIN INT32_MAX at *
    omega
  have hmin' : -n ≠ INT32_MIN := by
    unfold isInt32 INT32_MIN INT32_MAX at *
    omega
  have hq : isInt32 (Int.tdiv n d) := isInt32_tdiv n d hn hd0 (fun h => hmin h.1)
  have hq' : isInt32 (Int.tdiv (-n) d) := isInt32_tdiv (-n) d hn' hd0 (fun h => hmin' h.1)
  refine ⟨⟨Int.tdiv n d, Int.tmod n d, ?_, ?_, ?_, ?_⟩, by decide⟩
  · simp [int32_divide, hd0, hq]
  · simp [int32_remainder, hd0, hq]
  · have e : int32_divide (-n) d = some (Int.tdiv (-n) d) := by
      simp only [int32_divide, if_neg hd0, if_pos hq']
    rw [e, Int.neg_tdiv]
  · have e : int32_remainder (-n) d = some (Int.tmod (-n) d) := by
      simp only [int32_remainder, if_neg hd0, if_pos hq']
    rw [e, neg_tmod_eq]

/-- Witness for C13 at `n = 7`, `d = 2`. -/
theorem int32_divide_remainder_neg_witness :
    (∃ q r, int32_divide 7 2 = some q ∧ int32_remainder 7 2 = some r ∧
      int32_divide (-7) 2 = some (-q) ∧ int32_remainder (-7) 2 = some (-r)) ∧
      Int.fdiv (-7) 2 ≠ -Int.fdiv 7 2 :=
  int32_divide_remainder_neg 7 2 (by decide) (by decide) (by decide) (by decide)

/-- C14: for `int32_t` values `n`, `d` with `d ≠ 0` and `|n| < |d|` (absolute
values as unbounded integers), `int32_divide n d` returns `0` and
`int32_remainder n d` returns `n` itself, also for negative `n`. -/
theorem int32_divide_remainder_small (n d : Int) (_hn : isInt32 n) (_hd : isInt32 d)
    (hd0 : d ≠ 0) (hlt : n.natAbs < d.natAbs) :
    int32_divide n d = some 0 ∧ int32_remainder n d = some n := by
  have habs : (Int.tdiv n d).natAbs = n.natAbs / d.natAbs := Int.natAbs_tdiv n d
  have hq0 : Int.tdiv n d = 0 := by
    rw [Nat.div_eq_of_lt hlt] at habs
    exact Int.natAbs_eq_zero.mp habs
  have hr : Int.tmod n d = n := by
    rw [Int.tmod_def, hq0]
    simp
  have h0 : isInt32 0 := by decide
  constructor
  · simp [int32_divide, hd0, hq0, h0]
  · simp [int32_remainder, hd0, hq0, h0, hr]

/-- Witness for C14 at `n = -3`, `d = 5`. -/
theorem int32_divide_remainder_small_witness :
    int32_divide (-3) 5 = some 0 ∧ int32_remainder (-3) 5 = some (-3) :=
  int32_divide_remainder_small (-3) 5 (by decide) (by decide) (by decide) (by decide)

end CSwiftCovers
